import Mathlib

/-!
Verification of the bit/register algebra of the `rumio` crate
(`src/lib.rs`, `src/perm.rs`, `src/cpu.rs`, `src/mmio.rs` and the
accessor macros).

Machine integers of width `w` (8/16/32/64 for `u8`/`u16`/`u32`/`u64`,
and the word size for `usize`) are embedded as natural numbers below
`2 ^ w`.  Bitwise AND/OR are `Nat.land`/`Nat.lor`; Rust's `!x` on a
`w`-bit unsigned integer is xor with `2 ^ w - 1`; Rust's `x << n`
discards bits shifted past the top, so it is embedded as
shift-then-mod `2 ^ w`; `x >> n` is plain `Nat.shiftRight`.
-/

namespace Rumio

/-- Rust `!x` on a `w`-bit unsigned integer: complement within the
low `w` bits. -/
def notW (w x : Nat) : Nat := x ^^^ (2 ^ w - 1)

/-- Rust `x << n` on a `w`-bit unsigned integer: bits shifted past
the top are discarded. -/
def shlW (w x n : Nat) : Nat := (x <<< n) % 2 ^ w

/-- `Value<I>` from `src/lib.rs`: a `(mask, bits)` pair describing a
masked partial register update over a `w`-bit integer type `I`. -/
structure Value (w : Nat) where
  mask : Nat
  bits : Nat

/-- `Value::new` from `src/lib.rs` (generated by `impl_int!` for each
unsigned type): stores the mask and `bits & mask`. -/
def Value.new (w mask bits : Nat) : Value w :=
  { mask := mask, bits := bits &&& mask }

/-- `Value::modify` from `src/lib.rs`: `(val & !self.mask) | self.bits`. -/
def Value.modify {w : Nat} (v : Value w) (val : Nat) : Nat :=
  (val &&& notW w v.mask) ||| v.bits

/-- `impl BitOr for Value` from `src/lib.rs`: componentwise bitwise OR
of masks and of bits. -/
def Value.bitor {w : Nat} (v1 v2 : Value w) : Value w :=
  { mask := v1.mask ||| v2.mask, bits := v1.bits ||| v2.bits }

/-- `get_bits` from `src/lib.rs`: obtain the bits in the inclusive
range `(start, end)`, right-aligned.  `r.1` is `start`, `r.2` is
`end`; the local `e` is the source's shadowed `end + 1`. -/
def get_bits (w num : Nat) (r : Nat × Nat) : Nat :=
  let e := r.2 + 1
  let bits := shlW w num (w - e) >>> (w - e)
  bits >>> r.1

/-- `set_bits` from `src/lib.rs`: set the inclusive range
`(start, end)` of `num` to `bits`. -/
def set_bits (w num : Nat) (r : Nat × Nat) (bits : Nat) : Nat :=
  let e := r.2 + 1
  let mask := shlW w (notW w 0) (w - e) >>> (w - e)
  let mask := notW w (shlW w (mask >>> r.1) r.1)
  (num &&& mask) ||| (shlW w bits r.1 &&& notW w mask)

/-- The three permission marker types of `src/perm.rs`. -/
inductive Perm where
  | ReadOnly
  | WriteOnly
  | ReadWrite
deriving DecidableEq

/-- The `Readable` marker trait of `src/perm.rs`: implemented by
`ReadOnly` and `ReadWrite`. -/
def Perm.readable : Perm → Bool
  | .ReadOnly => true
  | .WriteOnly => false
  | .ReadWrite => true

/-- The `Writable` marker trait of `src/perm.rs`: implemented by
`WriteOnly` and `ReadWrite`. -/
def Perm.writable : Perm → Bool
  | .ReadOnly => false
  | .WriteOnly => true
  | .ReadWrite => true

/-- Value-level rendering of the `Compatible<P1, P2>` trait of
`src/perm.rs`.  A Rust impl exists exactly for
`Compatible<ReadOnly, P>` with `P: Readable` (output `ReadOnly`),
`Compatible<WriteOnly, P>` with `P: Writable` (output `WriteOnly`) and
`Compatible<ReadWrite, P>` for any permission `P` (output `P`); a
missing impl is a compile-time rejection, rendered as `none`. -/
def compatible : Perm → Perm → Option Perm
  | .ReadOnly, p => if p.readable then some .ReadOnly else none
  | .WriteOnly, p => if p.writable then some .WriteOnly else none
  | .ReadWrite, p => some p

/-- `Field<I, P>` from `src/lib.rs`: a permission-tagged bit mask over
a `w`-bit integer.  The Rust permission lives at the type level; it is
carried here as data. -/
structure Field (w : Nat) where
  mask : Nat
  perm : Perm
deriving DecidableEq

/-- `impl BitOr for Field` from `src/lib.rs`: defined only when
`P1: Compatible<P1, P2>` holds, with mask `mask1 | mask2` and the
permission given by `Compatible::Output`; the type-level rejection of
an incompatible pair is rendered as `none`. -/
def Field.bitor {w : Nat} (f1 f2 : Field w) : Option (Field w) :=
  match compatible f1.perm f2.perm with
  | some p => some { mask := f1.mask ||| f2.mask, perm := p }
  | none => none

/-- The enum-variant decode generated by `define_cpu_register!`
(`src/macros.rs`) and `define_mmio_register!` (`src/mmio/macros.rs`)
for an enum field: a `match` over the declared variant values in
declaration order, `Some(variant)` on the first arm whose value equals
the scrutinee and `None` on the final catch-all arm.  Variants are
represented by their position in the declaration list. -/
def enumDecode : List Nat → Nat → Option Nat
  | [], _ => none
  | v :: vs, bits => if bits = v then some 0 else (enumDecode vs bits).map Nat.succ

/-- The generated `get` of an enum field: read the register, extract
the field's inclusive bit range with `get_bits`, and decode it against
the declared variant values. -/
def enumGet (w : Nat) (variants : List Nat) (s e val : Nat) : Option Nat :=
  enumDecode variants (get_bits w val (s, e))

/-- A CPU register together with counters of how many raw reads and
writes were issued to it, to model the access trace of the
`impl_cpu_set!`/`impl_cpu_clear!` fallbacks in `src/cpu.rs`. -/
structure RegState where
  val : Nat
  reads : Nat
  writes : Nat

/-- One `RegisterRead::read()` call: returns the current raw value and
records one read. -/
def regRead (s : RegState) : Nat × RegState :=
  (s.val, { s with reads := s.reads + 1 })

/-- One `RegisterWrite::write(v)` call: stores the raw value and
records one write. -/
def regWrite (v : Nat) (s : RegState) : RegState :=
  { s with val := v, writes := s.writes + 1 }

/-- `impl_cpu_set!` from `src/cpu.rs`: `write(read() | mask)`. -/
def cpuSet (mask : Nat) (s : RegState) : RegState :=
  let r := regRead s
  regWrite (r.1 ||| mask) r.2

/-- `impl_cpu_clear!` from `src/cpu.rs`: `write(read() & !mask)` on a
`w`-bit register. -/
def cpuClear (w mask : Nat) (s : RegState) : RegState :=
  let r := regRead s
  regWrite (r.1 &&& notW w mask) r.2

/-- `VolAddr<T>` from `src/mmio.rs`: a typed volatile address.  The
referenced type `T` is represented by its byte size `sz`. -/
structure VolAddr (sz : Nat) where
  addr : Nat

/-- Rust `offset as usize` on a `w`-bit machine: two's-complement
reinterpretation of a signed integer. -/
def usizeOfInt (w : Nat) (count : Int) : Nat :=
  (count % ((2 : Int) ^ w)).toNat

/-- `VolAddr::offset` from `src/mmio.rs`:
`addr.wrapping_add(offset as usize * size_of::<T>())` with pointer
width `w`; the cast, the multiplication and the addition all wrap
modulo `2 ^ w`, and the referenced type (the `sz` parameter) is
unchanged. -/
def VolAddr.offset {sz : Nat} (w : Nat) (a : VolAddr sz) (count : Int) : VolAddr sz :=
  { addr := (a.addr + (usizeOfInt w count * sz) % 2 ^ w) % 2 ^ w }

/-- Shifting a `w`-bit left shift back right by the same amount keeps
the low `w - k` bits of the operand. -/
theorem shlW_shiftRight (w x k : Nat) (hk : k ≤ w) :
    shlW w x k >>> k = x % 2 ^ (w - k) := by
  apply Nat.eq_of_testBit_eq
  intro i
  simp only [shlW, Nat.testBit_shiftRight, Nat.testBit_mod_two_pow,
    Nat.testBit_shiftLeft, ge_iff_le, Nat.add_sub_cancel_left, Nat.add_sub_cancel]
  by_cases h1 : k + i < w
  · have h2 : i < w - k := by omega
    simp [h1, h2, Nat.le_add_right]
  · have h2 : ¬ i < w - k := by omega
    simp [h1, h2]

/-- Reducing mod `2 ^ m` commutes with a right shift. -/
theorem mod_two_pow_shiftRight (x m s : Nat) :
    (x % 2 ^ m) >>> s = (x >>> s) % 2 ^ (m - s) := by
  apply Nat.eq_of_testBit_eq
  intro i
  simp only [Nat.testBit_shiftRight, Nat.testBit_mod_two_pow]
  by_cases h1 : s + i < m
  · have h2 : i < m - s := by omega
    simp [h1, h2]
  · have h2 : ¬ i < m - s := by omega
    simp [h1, h2]

/-- `!0` on a `w`-bit integer is the all-ones word. -/
theorem notW_zero (w : Nat) : notW w 0 = 2 ^ w - 1 := by
  simp [notW]

/-- Complementing twice within `w` bits is the identity. -/
theorem notW_notW (w x : Nat) : notW w (notW w x) = x := by
  simp [notW, Nat.xor_assoc]

/-- The all-ones word truncated to `m ≤ w` bits is the `m`-bit
all-ones word. -/
theorem two_pow_sub_one_mod (w m : Nat) (h : m ≤ w) :
    (2 ^ w - 1) % 2 ^ m = 2 ^ m - 1 := by
  apply Nat.eq_of_testBit_eq
  intro i
  simp only [Nat.testBit_mod_two_pow, Nat.testBit_two_pow_sub_one]
  by_cases h1 : i < m
  · have h2 : i < w := by omega
    simp [h1, h2]
  · simp [h1]

/-- Closed form of `get_bits` on a valid range: the bits of `num` in
`[s, e]`, right-aligned. -/
theorem get_bits_eq (w num s e : Nat) (hse : s ≤ e) (hew : e < w) :
    get_bits w num (s, e) = (num >>> s) % 2 ^ (e - s + 1) := by
  have hk : w - (e + 1) ≤ w := by omega
  have hw : w - (w - (e + 1)) = e + 1 := by omega
  have he : e + 1 - s = e - s + 1 := by omega
  simp only [get_bits]
  rw [shlW_shiftRight w num (w - (e + 1)) hk, hw, mod_two_pow_shiftRight, he]

/-- C1: `Value::new(mask, bits).modify(original)` equals
`(original & !mask) | (bits & mask)`, and applying the same `Value`'s
`modify` twice in a row yields the same result as applying it once. -/
theorem C1_value_modify_formula_and_idempotent (w mask bits original : Nat) :
    (Value.new w mask bits).modify original
      = (original &&& notW w mask) ||| (bits &&& mask)
    ∧ (Value.new w mask bits).modify ((Value.new w mask bits).modify original)
      = (Value.new w mask bits).modify original := by
  refine ⟨rfl, ?_⟩
  apply Nat.eq_of_testBit_eq
  intro i
  simp only [Value.new, Value.modify, notW, Nat.testBit_lor, Nat.testBit_land,
    Nat.testBit_xor, Nat.testBit_two_pow_sub_one]
  cases original.testBit i <;> cases mask.testBit i <;> cases bits.testBit i <;>
    cases decide (i < w) <;> rfl

/-- C2: on a valid range, `get_bits(num, (start, end))` is
`num >> start` restricted to its low `end - start + 1` bits; in
particular the three documented `u32` examples hold. -/
theorem C2_get_bits_spec :
    (∀ w num s e : Nat, s ≤ e → e < w →
      get_bits w num (s, e) = (num >>> s) % 2 ^ (e - s + 1))
    ∧ get_bits 32 0b011011 (1, 3) = 0b101
    ∧ get_bits 32 0b011011 (0, 1) = 0b11
    ∧ get_bits 32 0b011011 (4, 6) = 0b001 := by
  refine ⟨fun w num s e hse hew => get_bits_eq w num s e hse hew, ?_, ?_, ?_⟩ <;> decide

/-- Witness for C2 at `w = 8`, `num = 0b011011`, range `(1, 3)`. -/
theorem C2_get_bits_spec_witness :
    get_bits 8 0b011011 (1, 3) = (0b011011 >>> 1) % 2 ^ 3 :=
  C2_get_bits_spec.1 8 0b011011 1 3 (by decide) (by decide)

/-- Bit-level characterization of `set_bits` on a valid range: inside
`[s, e]` the result carries the (right-aligned) bits of `bits`,
outside it carries the bits of `num`. -/
theorem testBit_set_bits (w num s e bits i : Nat) (hse : s ≤ e) (hew : e < w)
    (hnum : num < 2 ^ w) :
    (set_bits w num (s, e) bits).testBit i
      = if s ≤ i ∧ i ≤ e then bits.testBit (i - s) else num.testBit i := by
  have hk : w - (e + 1) ≤ w := by omega
  have hw : w - (w - (e + 1)) = e + 1 := by omega
  simp only [set_bits]
  rw [notW_zero, shlW_shiftRight w _ _ hk, hw,
    two_pow_sub_one_mod w (e + 1) (by omega), notW_notW]
  simp only [notW, shlW, Nat.testBit_lor, Nat.testBit_land, Nat.testBit_xor,
    Nat.testBit_mod_two_pow, Nat.testBit_shiftLeft, Nat.testBit_shiftRight,
    Nat.testBit_two_pow_sub_one, ge_iff_le]
  by_cases hiw : i < w
  · by_cases hs : s ≤ i
    · by_cases hie : i ≤ e
      · have h1 : s + (i - s) < e + 1 := by omega
        simp [hiw, hs, hie, h1, (by omega : i < e + 1)]
      · have h1 : ¬ s + (i - s) < e + 1 := by omega
        have hd : decide (i < e + 1) = false := decide_eq_false (by omega)
        simp [hiw, hs, hie, h1, hd]
    · simp [hiw, hs, (by omega : ¬ (s ≤ i ∧ i ≤ e))]
  · have hnb : num.testBit i = false :=
      Nat.testBit_eq_false_of_lt
        (lt_of_lt_of_le hnum (Nat.pow_le_pow_right (by norm_num) (by omega)))
    simp only [hnb, decide_eq_false hiw, Bool.false_and, Bool.and_false,
      Bool.xor_false, Bool.false_or, Bool.false_xor, Bool.or_false]
    rw [if_neg (by omega : ¬ (s ≤ i ∧ i ≤ e))]

/-- C3: inserting `bits` into the range `[s, e]` of `num` with
`set_bits` and extracting the same range with `get_bits` returns
`bits` truncated to its low `e - s + 1` bits. -/
theorem C3_set_bits_get_bits_roundtrip (w num s e bits : Nat)
    (hse : s ≤ e) (hew : e < w) (hnum : num < 2 ^ w) :
    get_bits w (set_bits w num (s, e) bits) (s, e) = bits % 2 ^ (e - s + 1) := by
  rw [get_bits_eq w _ s e hse hew]
  apply Nat.eq_of_testBit_eq
  intro i
  simp only [Nat.testBit_mod_two_pow, Nat.testBit_shiftRight]
  rw [testBit_set_bits w num s e bits (s + i) hse hew hnum]
  by_cases h : i < e - s + 1
  · have hc : s ≤ s + i ∧ s + i ≤ e := by omega
    simp [h, hc]
  · simp [h]

/-- Witness for C3 at `w = 8`, `num = 0`, range `(0, 2)`, `bits = 0b101`. -/
theorem C3_set_bits_get_bits_roundtrip_witness :
    get_bits 8 (set_bits 8 0 (0, 2) 0b101) (0, 2) = 0b101 % 2 ^ 3 :=
  C3_set_bits_get_bits_roundtrip 8 0 0 2 0b101 (by decide) (by decide) (by decide)

/-- C4: `set_bits` agrees with `num` at every bit position outside the
inclusive range `[s, e]`. -/
theorem C4_set_bits_frame (w num s e bits i : Nat) (hse : s ≤ e) (hew : e < w)
    (hnum : num < 2 ^ w) (hout : i < s ∨ e < i) :
    (set_bits w num (s, e) bits).testBit i = num.testBit i := by
  rw [testBit_set_bits w num s e bits i hse hew hnum]
  have hc : ¬ (s ≤ i ∧ i ≤ e) := by omega
  simp [hc]

/-- Witness for C4 at `w = 8`, `num = 0b1111`, range `(1, 2)`,
`bits = 0`, position `0`. -/
theorem C4_set_bits_frame_witness :
    (set_bits 8 0b1111 (1, 2) 0).testBit 0 = (0b1111 : Nat).testBit 0 :=
  C4_set_bits_frame 8 0b1111 1 2 0 0 (by decide) (by decide) (by decide)
    (Or.inl (by decide))

/-- C5: `Value::new` enforces the invariant `bits == bits & mask`, and
the invariant is preserved by the `BitOr` combination of two `Value`s. -/
theorem C5_value_invariant (w : Nat) :
    (∀ mask bits : Nat, (Value.new w mask bits).bits = bits &&& mask)
    ∧ (∀ v1 v2 : Value w,
        v1.bits = v1.bits &&& v1.mask → v2.bits = v2.bits &&& v2.mask →
        (v1.bitor v2).bits = (v1.bitor v2).bits &&& (v1.bitor v2).mask) := by
  refine ⟨fun mask bits => rfl, fun v1 v2 h1 h2 => ?_⟩
  show v1.bits ||| v2.bits = (v1.bits ||| v2.bits) &&& (v1.mask ||| v2.mask)
  apply Nat.eq_of_testBit_eq
  intro i
  have hb1 : v1.bits.testBit i = (v1.bits.testBit i && v1.mask.testBit i) := by
    conv => lhs; rw [h1]
    exact Nat.testBit_land v1.bits v1.mask i
  have hb2 : v2.bits.testBit i = (v2.bits.testBit i && v2.mask.testBit i) := by
    conv => lhs; rw [h2]
    exact Nat.testBit_land v2.bits v2.mask i
  simp only [Nat.testBit_lor, Nat.testBit_land]
  rw [hb1, hb2]
  cases v1.bits.testBit i <;> cases v2.bits.testBit i <;>
    cases v1.mask.testBit i <;> cases v2.mask.testBit i <;> rfl

/-- Witness for C5 at `w = 8` with the two values
`Value::new(0b101, 0b111)` and `Value::new(0b010, 0b011)`. -/
theorem C5_value_invariant_witness :
    ((Value.new 8 0b101 0b111).bitor (Value.new 8 0b010 0b011)).bits
      = ((Value.new 8 0b101 0b111).bitor (Value.new 8 0b010 0b011)).bits
        &&& ((Value.new 8 0b101 0b111).bitor (Value.new 8 0b010 0b011)).mask :=
  (C5_value_invariant 8).2 (Value.new 8 0b101 0b111) (Value.new 8 0b010 0b011)
    (by decide) (by decide)

/-- C6: the `BitOr` combination of two `Value`s has mask
`mask1 | mask2` and bits `bits1 | bits2` — a plain bitwise OR of the
already-masked bit patterns, total for every pair, overlapping masks
included, with no conflict detection. -/
theorem C6_value_combine (w : Nat) (v1 v2 : Value w) :
    (v1.bitor v2).mask = v1.mask ||| v2.mask
    ∧ (v1.bitor v2).bits = v1.bits ||| v2.bits :=
  ⟨rfl, rfl⟩

/-- C7: combining two `Field`s yields mask `mask1 | mask2` and the
permission given by the `Compatible` table (`ReadOnly` with any
`Readable` gives `ReadOnly`, `WriteOnly` with any `Writable` gives
`WriteOnly`, `ReadWrite` with any `P` gives `P`); exactly the pairs
outside the table are rejected and never produce a usable `Field`. -/
theorem C7_field_combine (w : Nat) :
    (∀ f1 f2 g : Field w, f1.bitor f2 = some g →
        g.mask = f1.mask ||| f2.mask ∧ compatible f1.perm f2.perm = some g.perm)
    ∧ (∀ p : Perm, p.readable = true →
        compatible Perm.ReadOnly p = some Perm.ReadOnly)
    ∧ (∀ p : Perm, p.writable = true →
        compatible Perm.WriteOnly p = some Perm.WriteOnly)
    ∧ (∀ p : Perm, compatible Perm.ReadWrite p = some p)
    ∧ (∀ p1 p2 : Perm, compatible p1 p2 = none ↔
        ¬ ((p1 = Perm.ReadOnly ∧ p2.readable = true)
          ∨ (p1 = Perm.WriteOnly ∧ p2.writable = true)
          ∨ p1 = Perm.ReadWrite))
    ∧ (∀ f1 f2 : Field w, compatible f1.perm f2.perm = none →
        f1.bitor f2 = none) := by
  refine ⟨?_, ?_, ?_, ?_, ?_, ?_⟩
  · intro f1 f2 g h
    unfold Field.bitor at h
    cases hc : compatible f1.perm f2.perm with
    | none => rw [hc] at h; exact absurd h (by simp)
    | some p =>
      rw [hc] at h
      simp only [Option.some.injEq] at h
      subst h
      exact ⟨rfl, rfl⟩
  · intro p hp
    cases p <;> simp_all [compatible, Perm.readable]
  · intro p hp
    cases p <;> simp_all [compatible, Perm.writable]
  · intro p
    rfl
  · intro p1 p2
    cases p1 <;> cases p2 <;> simp [compatible, Perm.readable, Perm.writable]
  · intro f1 f2 h
    simp [Field.bitor, h]

/-- Witness for C7: combining `Field(0b0010, ReadOnly)` with
`Field(0b0100, ReadOnly)` yields mask `0b0110` and permission
`ReadOnly`. -/
theorem C7_field_combine_witness :
    (0b0110 : Nat) = 0b0010 ||| 0b0100
    ∧ compatible Perm.ReadOnly Perm.ReadOnly = some Perm.ReadOnly :=
  (C7_field_combine 8).1 ⟨0b0010, Perm.ReadOnly⟩ ⟨0b0100, Perm.ReadOnly⟩
    ⟨0b0110, Perm.ReadOnly⟩ (by decide)

/-- `enumDecode` succeeds exactly on the declared variant values. -/
theorem enumDecode_isSome_iff (vs : List Nat) (b : Nat) :
    (enumDecode vs b).isSome = true ↔ b ∈ vs := by
  induction vs with
  | nil => simp [enumDecode]
  | cons v vs ih =>
    by_cases h : b = v
    · simp [enumDecode, h]
    · simp [enumDecode, h, ih]

/-- When `enumDecode` returns an index, that index points at a variant
whose declared value is the decoded bit pattern. -/
theorem enumDecode_some (vs : List Nat) (b i : Nat)
    (h : enumDecode vs b = some i) : vs[i]? = some b := by
  induction vs generalizing i with
  | nil => simp [enumDecode] at h
  | cons v vs ih =>
    by_cases hb : b = v
    · subst hb
      have h0 : i = 0 := by
        simp [enumDecode] at h
        omega
      subst h0
      simp
    · rw [show enumDecode (v :: vs) b = (enumDecode vs b).map Nat.succ from by
        simp [enumDecode, hb]] at h
      obtain ⟨j, hj, hji⟩ := Option.map_eq_some'.mp h
      subst hji
      simpa using ih j hj

/-- C8: the generated enum-field `get` extracts the field's inclusive
bit range and returns `None` exactly when the extracted pattern
matches no declared variant value; when it returns `Some`, the
returned variant's declared value equals the extracted pattern.  It is
a total function into `Option` — no fault, panic or default variant. -/
theorem C8_enum_get (w : Nat) (variants : List Nat) (s e val : Nat) :
    (enumGet w variants s e val = none ↔ get_bits w val (s, e) ∉ variants)
    ∧ (∀ i, enumGet w variants s e val = some i →
        variants[i]? = some (get_bits w val (s, e))) := by
  constructor
  · rw [← enumDecode_isSome_iff variants (get_bits w val (s, e))]
    unfold enumGet
    cases enumDecode variants (get_bits w val (s, e)) <;> simp
  · intro i h
    exact enumDecode_some variants (get_bits w val (s, e)) i h

/-- Witness for C8: decoding the pattern `0b10` of an enum field over
bits `[0, 1]` against the declared values `[0, 2, 3]` yields the
variant at index 1, whose declared value is the pattern. -/
theorem C8_enum_get_witness :
    ([0, 2, 3] : List Nat)[1]? = some (get_bits 8 0b10 (0, 1)) :=
  (C8_enum_get 8 [0, 2, 3] 0 1 0b10).2 1 (by decide)

/-- C9: the non-atomic read-modify-write fallbacks issue exactly one
read and one write; without interleaving, `impl_cpu_set!` leaves
`v | mask` and `impl_cpu_clear!` leaves `v & !mask` in the register. -/
theorem C9_cpu_set_clear (w mask : Nat) (s : RegState) :
    (cpuSet mask s).val = s.val ||| mask
    ∧ (cpuSet mask s).reads = s.reads + 1
    ∧ (cpuSet mask s).writes = s.writes + 1
    ∧ (cpuClear w mask s).val = s.val &&& notW w mask
    ∧ (cpuClear w mask s).reads = s.reads + 1
    ∧ (cpuClear w mask s).writes = s.writes + 1 :=
  ⟨rfl, rfl, rfl, rfl, rfl, rfl⟩

/-- C10: `VolAddr::offset(count)` on a `w`-bit machine yields the
address `a + count * size_of::<T>()` modulo `2 ^ w`, wrapping on
overflow and for negative counts, with the referenced type unchanged
(the `sz` index of the result type equals the input's). -/
theorem C10_voladdr_offset (sz w : Nat) (a : VolAddr sz) (count : Int) :
    ((a.offset w count).addr : Int) = ((a.addr : Int) + count * sz) % 2 ^ w := by
  have hc : 0 ≤ count % ((2 : Int) ^ w) := Int.emod_nonneg count (by positivity)
  simp only [VolAddr.offset, usizeOfInt]
  push_cast
  rw [Int.toNat_of_nonneg hc]
  rw [Int.add_emod, Int.emod_emod_of_dvd _ dvd_rfl]
  have h1 : count % 2 ^ w * (sz : Int) % 2 ^ w = count * sz % 2 ^ w := by
    calc count % 2 ^ w * (sz : Int) % 2 ^ w
        = count % 2 ^ w % 2 ^ w * ((sz : Int) % 2 ^ w) % 2 ^ w := Int.mul_emod _ _ _
      _ = count % 2 ^ w * ((sz : Int) % 2 ^ w) % 2 ^ w := by
          rw [Int.emod_emod_of_dvd _ dvd_rfl]
      _ = count * sz % 2 ^ w := (Int.mul_emod _ _ _).symm
  rw [h1, ← Int.add_emod]

end Rumio
